import Mathlib

/-!
Shallow embedding of the `lft` trade-analysis scripts (`analyze_trades.py` and
`analyze_win_rates.py`) and proofs about their matching and aggregation logic.

Modelling conventions:
* A raw JSON order record is a structure of optional fields; `none` models an
  absent (or `null`) key.  Accessing a required key (`order['symbol']`,
  `order['side']`) on a record lacking it is Python's `KeyError`; fallible
  computations therefore live in `Except String`.
* Python floats are modelled as rationals; `float(order.get(k, 0))` becomes
  `Option.getD _ 0`.  Float division by zero raises `ZeroDivisionError` in
  Python and is modelled as an `Except.error`.
* Fill timestamps are ISO-8601 strings compared lexicographically in the
  source, which on these equal-format strings coincides with chronological
  order; a timestamp is modelled as a `Nat` instant.  The source's
  `buy['time'][:10]` (date prefix of the timestamp, display only) is modelled
  as the instant itself.
* `list.sort(key=...)` is Python's stable sort; any two stable sorts agree,
  so it is modelled by `List.insertionSort` on the same key.
* A Python `str` that is actually inspected character-wise (the
  `client_order_id`) is handled through its character list `String.data`.
-/

/-- A raw brokerage order record as consumed by both scripts.  Each field
models one JSON key; `none` means the key is absent. -/
structure Order where
  symbol : Option String
  side : Option String
  filled_qty : Option ℚ
  qty : Option ℚ
  filled_avg_price : Option ℚ
  filled_at : Option Nat
  created_at : Option Nat
  client_order_id : Option String
deriving DecidableEq

/-! ## analyze_trades.py -/

/-- Notional of a record in `analyze_trades.py`:
`float(order.get('filled_avg_price', 0)) * float(order.get('filled_qty', 0))
if order.get('filled_avg_price') else 0`. -/
def tradesNotional (o : Order) : ℚ :=
  match o.filled_avg_price with
  | some p => p * o.filled_qty.getD 0
  | none => 0

/-- One printed per-fill report row of `analyze_trades.py`.  `time` is the
fill time (falling back to the creation time); `none` is rendered `N/A`.  The
source truncates the displayed timestamp to whole seconds (`[:19]`), which on
an instant is the identity. -/
structure Row where
  symbol : String
  side : String
  qty : ℚ
  price : ℚ
  notional : ℚ
  time : Option Nat
deriving DecidableEq

/-- The report row printed for one record:
`qty = order.get('filled_qty', order.get('qty', '0'))`,
`filled_price = order.get('filled_avg_price', '0')`,
`filled_at = order.get('filled_at', order.get('created_at', ''))`. -/
def mkRow (o : Order) (symbol side : String) : Row :=
  { symbol := symbol
    side := side
    qty := (o.filled_qty.orElse fun _ => o.qty).getD 0
    price := o.filled_avg_price.getD 0
    notional := tradesNotional o
    time := o.filled_at.orElse fun _ => o.created_at }

/-- Per-symbol entry of the `pairs` dict: the lists of buy and sell
notionals appended for that symbol. -/
structure SymbolLists where
  buys : List ℚ
  sells : List ℚ
deriving DecidableEq

/-- Accumulated state of `analyze_trades.py`: printed rows, running totals
and the insertion-ordered `pairs` dict. -/
structure TradesState where
  rows : List Row
  total_buy : ℚ
  total_sell : ℚ
  pairs : List (String × SymbolLists)
deriving DecidableEq

/-- Python `pairs[symbol]['buys'].append(notional)`, creating the entry first when
`symbol not in pairs` (new symbols are appended, as in a Python dict). -/
def pairsAddBuy : List (String × SymbolLists) → String → ℚ → List (String × SymbolLists)
  | [], sym, n => [(sym, ⟨[n], []⟩)]
  | (s, ls) :: rest, sym, n =>
    if s = sym then (s, ⟨ls.buys ++ [n], ls.sells⟩) :: rest
    else (s, ls) :: pairsAddBuy rest sym n

/-- Python `pairs[symbol]['sells'].append(notional)`, creating the entry first when
`symbol not in pairs`. -/
def pairsAddSell : List (String × SymbolLists) → String → ℚ → List (String × SymbolLists)
  | [], sym, n => [(sym, ⟨[], [n]⟩)]
  | (s, ls) :: rest, sym, n =>
    if s = sym then (s, ⟨ls.buys, ls.sells ++ [n]⟩) :: rest
    else (s, ls) :: pairsAddSell rest sym n

/-- The body of the per-order loop of `analyze_trades.py`: reads the
required `symbol` and `side` keys (KeyError aborts the run), prints the
report row, then dispatches on `side == 'buy'` / `elif side == 'sell'`;
any other side value only produces the row. -/
def tradesStep (st : TradesState) (o : Order) : Except String TradesState :=
  match o.symbol with
  | none => .error "KeyError: symbol"
  | some symbol =>
    match o.side with
    | none => .error "KeyError: side"
    | some side =>
      let notional := tradesNotional o
      let st1 : TradesState := { st with rows := st.rows ++ [mkRow o symbol side] }
      if side = "buy" then
        .ok { st1 with total_buy := st1.total_buy + notional
                       pairs := pairsAddBuy st1.pairs symbol notional }
      else if side = "sell" then
        .ok { st1 with total_sell := st1.total_sell + notional
                       pairs := pairsAddSell st1.pairs symbol notional }
      else .ok st1

/-- The per-order loop of `analyze_trades.py` over a whole batch. -/
def analyzeTrades : TradesState → List Order → Except String TradesState
  | st, [] => .ok st
  | st, o :: os =>
    match tradesStep st o with
    | .error e => .error e
    | .ok st' => analyzeTrades st' os

/-- Initial state: no rows, zero totals, empty `pairs`. -/
def tradesInit : TradesState := ⟨[], 0, 0, []⟩

/-- Run `analyze_trades.py` on a batch read from standard input. -/
def runTrades (orders : List Order) : Except String TradesState :=
  analyzeTrades tradesInit orders

/-- Per-symbol P&L fold of the breakdown section: the sum over entries of
`sum(trades['sells']) - sum(trades['buys'])`.  The source iterates
`sorted(pairs.items())`; the accumulated total is a sum and hence the same
for any iteration order of the dict. -/
def pairsPnl (l : List (String × SymbolLists)) : ℚ :=
  (l.map fun p => p.2.sells.sum - p.2.buys.sum).sum

/-- Sum of the per-symbol buy-notional lists. -/
def pairsBuySum (l : List (String × SymbolLists)) : ℚ :=
  (l.map fun p => p.2.buys.sum).sum

/-- Sum of the per-symbol sell-notional lists. -/
def pairsSellSum (l : List (String × SymbolLists)) : ℚ :=
  (l.map fun p => p.2.sells.sum).sum

/-- Total notional of the input records with `side == 'buy'`. -/
def inputBuyTotal (orders : List Order) : ℚ :=
  ((orders.filter fun o => o.side = some "buy").map tradesNotional).sum

/-- Total notional of the input records with `side == 'sell'`. -/
def inputSellTotal (orders : List Order) : ℚ :=
  ((orders.filter fun o => o.side = some "sell").map tradesNotional).sum

/-! ## analyze_win_rates.py: classifier -/

/-- Splitting a character list at every occurrence of `c`, exactly as
Python's `str.split(sep)` with a one-character separator: `''` splits to
`['']`, a separator at either end yields an empty token there. -/
def splitOnChar (c : Char) : List Char → List (List Char)
  | [] => [[]]
  | a :: as =>
    if a = c then [] :: splitOnChar c as
    else
      match splitOnChar c as with
      | [] => [[a]]
      | r :: rs => (a :: r) :: rs

/-- Strategy tag of a buy order:
`client_id = order.get('client_order_id', '')`; if `client_id` is truthy and
contains `'_'`, the tag is `client_id.split('_')[1]`, else `'UNKNOWN'`. -/
def strategyOf (o : Order) : String :=
  let cid := o.client_order_id.getD ""
  if cid ≠ "" ∧ '_' ∈ cid.data then
    String.mk ((splitOnChar '_' cid.data).getD 1 [])
  else "UNKNOWN"

/-- Modelled from the spec: "if the order carries a structured client
identifier containing a delimiter-separated token list with at least two
tokens, the strategy is the second token; otherwise strategy is the literal
tag UNKNOWN". -/
def specStrategyTag (o : Order) : String :=
  match o.client_order_id with
  | none => "UNKNOWN"
  | some cid =>
    let toks := splitOnChar '_' cid.data
    if 2 ≤ toks.length then String.mk (toks.getD 1 []) else "UNKNOWN"

/-- A classified buy fill (the dict appended to `buys`). -/
structure BuyFill where
  symbol : String
  strategy : String
  price : ℚ
  qty : ℚ
  time : Nat
  notional : ℚ
deriving DecidableEq

/-- A classified sell fill (the dict appended to `sells`). -/
structure SellFill where
  symbol : String
  price : ℚ
  qty : ℚ
  time : Nat
  notional : ℚ
deriving DecidableEq

/-- Effect of one record on the `buys`/`sells` lists. -/
inductive FillAction where
  | skip : FillAction
  | addBuy : BuyFill → FillAction
  | addSell : SellFill → FillAction
deriving DecidableEq

/-- Classification of one record in `analyze_win_rates.py`: records with no
`filled_at` are skipped; then `order['side']` is read (KeyError if absent);
a `'buy'` or `'sell'` side builds a fill from `order['symbol']` (KeyError if
absent) and the optional filled price/quantity; any other side value is
skipped by the `if`/`elif` dispatch. -/
def classifyOrder (o : Order) : Except String FillAction :=
  match o.filled_at with
  | none => .ok .skip
  | some t =>
    match o.side with
    | none => .error "KeyError: side"
    | some side =>
      if side = "buy" then
        match o.symbol with
        | none => .error "KeyError: symbol"
        | some sym =>
          .ok (.addBuy
            { symbol := sym
              strategy := strategyOf o
              price := o.filled_avg_price.getD 0
              qty := o.filled_qty.getD 0
              time := t
              notional := o.filled_avg_price.getD 0 * o.filled_qty.getD 0 })
      else if side = "sell" then
        match o.symbol with
        | none => .error "KeyError: symbol"
        | some sym =>
          .ok (.addSell
            { symbol := sym
              price := o.filled_avg_price.getD 0
              qty := o.filled_qty.getD 0
              time := t
              notional := o.filled_avg_price.getD 0 * o.filled_qty.getD 0 })
      else .ok .skip

/-- The classification loop: builds the `buys` and `sells` lists in input
order, aborting at the first KeyError. -/
def classifyOrders : List Order → Except String (List BuyFill × List SellFill)
  | [] => .ok ([], [])
  | o :: os =>
    match classifyOrder o with
    | .error e => .error e
    | .ok a =>
      match classifyOrders os with
      | .error e => .error e
      | .ok (bs, ss) =>
        match a with
        | .skip => .ok (bs, ss)
        | .addBuy b => .ok (b :: bs, ss)
        | .addSell s => .ok (bs, s :: ss)

/-! ## analyze_win_rates.py: reconciliation engine -/

/-- Ascending fill-time order on buy fills (`buys.sort(key=lambda x: x['time'])`). -/
def buyLe (a b : BuyFill) : Prop := a.time ≤ b.time

instance : DecidableRel buyLe := fun a b => Nat.decLe a.time b.time

instance : IsTotal BuyFill buyLe := ⟨fun a b => Nat.le_total a.time b.time⟩

instance : IsTrans BuyFill buyLe := ⟨fun _ _ _ h h' => Nat.le_trans h h'⟩

/-- Ascending fill-time order on sell fills. -/
def sellLe (a b : SellFill) : Prop := a.time ≤ b.time

instance : DecidableRel sellLe := fun a b => Nat.decLe a.time b.time

instance : IsTotal SellFill sellLe := ⟨fun a b => Nat.le_total a.time b.time⟩

instance : IsTrans SellFill sellLe := ⟨fun _ _ _ h h' => Nat.le_trans h h'⟩

/-- Python `buys.sort(key=lambda x: x['time'])`: a stable ascending sort. -/
def sortBuys (l : List BuyFill) : List BuyFill := l.insertionSort buyLe

/-- Python `sells.sort(key=lambda x: x['time'])`: a stable ascending sort. -/
def sortSells (l : List SellFill) : List SellFill := l.insertionSort sellLe

/-- One matched trade, the dict appended to the strategy's `trades` list.
`date` models `buy['time'][:10]` (the date prefix of the buy's timestamp). -/
structure Trade where
  symbol : String
  buy_price : ℚ
  sell_price : ℚ
  pnl : ℚ
  pnl_pct : ℚ
  date : Nat
deriving DecidableEq

/-- P&L computation for a matched pair: `pnl = sell['notional'] - buy['notional']`,
`pnl_pct = (pnl / buy['notional']) * 100`.  When the buy notional is zero the
Python division raises `ZeroDivisionError`, which aborts the run. -/
def mkTrade (buy : BuyFill) (sell : SellFill) : Except String Trade :=
  let pnl := sell.notional - buy.notional
  if buy.notional = 0 then .error "ZeroDivisionError"
  else
    .ok { symbol := buy.symbol
          buy_price := buy.price
          sell_price := sell.price
          pnl := pnl
          pnl_pct := pnl / buy.notional * 100
          date := buy.time }

/-- The inner loop `for i, buy in enumerate(buys)`: the first buy with the
sell's symbol and a strictly earlier time, together with the pool after
`buys.pop(i)`; `none` when no buy qualifies. -/
def findBuy (sell : SellFill) : List BuyFill → Option (BuyFill × List BuyFill)
  | [] => none
  | b :: bs =>
    if b.symbol = sell.symbol ∧ b.time < sell.time then some (b, bs)
    else
      match findBuy sell bs with
      | none => none
      | some (m, rest) => some (m, b :: rest)

/-- The outer loop `for sell in sells` over the shrinking buy pool.  Each
matched sell contributes one `(strategy, trade)` entry, recorded under
`buy['strategy']`; the result also carries the leftover unmatched buys.  The
source updates `strategy_stats` inside this loop; each update depends only on
the emitted entry, so the final stats are the in-order fold `strategyStats`
below over these entries. -/
def matchSells : List BuyFill → List SellFill → Except String (List (String × Trade) × List BuyFill)
  | buys, [] => .ok ([], buys)
  | buys, s :: ss =>
    match findBuy s buys with
    | none => matchSells buys ss
    | some (b, rest) =>
      match mkTrade b s with
      | .error e => .error e
      | .ok t =>
        match matchSells rest ss with
        | .error e => .error e
        | .ok (ms, rem) => .ok ((b.strategy, t) :: ms, rem)

/-- The whole pipeline of `analyze_win_rates.py` up to `strategy_stats`:
classify, sort both lists by time, then match. -/
def analyzeWinRates (orders : List Order) :
    Except String (List (String × Trade) × List BuyFill) :=
  match classifyOrders orders with
  | .error e => .error e
  | .ok (buys, sells) => matchSells (sortBuys buys) (sortSells sells)

/-- Per-strategy accumulator: `{'wins': 0, 'losses': 0, 'total_pnl': 0.0, 'trades': []}`. -/
structure Stats where
  wins : Nat
  losses : Nat
  total_pnl : ℚ
  trades : List Trade
deriving DecidableEq

/-- The `defaultdict` default value. -/
def statsInit : Stats := ⟨0, 0, 0, []⟩

/-- One matched trade's effect on its strategy's stats: append the trade,
increment `wins` when `pnl > 0` and `losses` otherwise, accumulate `total_pnl`. -/
def statsAdd (st : Stats) (t : Trade) : Stats :=
  { wins := if t.pnl > 0 then st.wins + 1 else st.wins
    losses := if t.pnl > 0 then st.losses else st.losses + 1
    total_pnl := st.total_pnl + t.pnl
    trades := st.trades ++ [t] }

/-- In-order fold of matched entries into the strategy map, starting from `f`. -/
def statsFold (f : String → Stats) : List (String × Trade) → String → Stats
  | [] => f
  | m :: ms => statsFold (fun k => if k = m.1 then statsAdd (f m.1) m.2 else f k) ms

/-- The `strategy_stats` map after the matching loop: every strategy's stats, with
the `defaultdict` default for strategies that received no trade. -/
def strategyStats (ms : List (String × Trade)) : String → Stats :=
  statsFold (fun _ => statsInit) ms

/-! ## Spec-modelled reconciliation engine, for comparison with the source -/

/-- Eligibility of a buy for a sell, as the spec words it: same symbol,
strictly earlier timestamp. -/
def specEligible (sell : SellFill) (b : BuyFill) : Bool :=
  decide (b.symbol = sell.symbol ∧ b.time < sell.time)

/-- Modelled from the spec: "scan the remaining unmatched buys in their
current order and select the first buy with the same symbol whose timestamp
is strictly earlier than the sell's timestamp". -/
def specSelect (buys : List BuyFill) (sell : SellFill) : Option BuyFill :=
  buys.find? (specEligible sell)

/-- Modelled from the spec: "remove that buy from the unmatched pool". -/
def specRemove (buys : List BuyFill) (sell : SellFill) : List BuyFill :=
  buys.eraseIdx (buys.findIdx (specEligible sell))

/-- Modelled from the spec: for each sell in ascending order, either form a
matched trade with the selected buy and drop it from the pool, or record
nothing for that sell. -/
def specMatchSells : List BuyFill → List SellFill → Except String (List (String × Trade) × List BuyFill)
  | buys, [] => .ok ([], buys)
  | buys, s :: ss =>
    match specSelect buys s with
    | none => specMatchSells buys ss
    | some b =>
      match mkTrade b s with
      | .error e => .error e
      | .ok t =>
        match specMatchSells (specRemove buys s) ss with
        | .error e => .error e
        | .ok (ms, rem) => .ok ((b.strategy, t) :: ms, rem)

/-- The spec-modelled pipeline: classify, sort by ascending timestamp, match
by the spec's first-eligible-buy rule. -/
def specAnalyzeWinRates (orders : List Order) :
    Except String (List (String × Trade) × List BuyFill) :=
  match classifyOrders orders with
  | .error e => .error e
  | .ok (buys, sells) => specMatchSells (sortBuys buys) (sortSells sells)

/-- The buy fill a record classifies to, if any (projection of
`classifyOrder` used to reason about the classification loop). -/
def buyOf (o : Order) : Option BuyFill :=
  match classifyOrder o with
  | .ok (.addBuy b) => some b
  | _ => none

/-- The sell fill a record classifies to, if any. -/
def sellOf (o : Order) : Option SellFill :=
  match classifyOrder o with
  | .ok (.addSell s) => some s
  | _ => none

/-! ## Auxiliary predicate and concrete inputs used in the theorems below -/

/-- Whether a run aborted with an error (as opposed to returning a result). -/
def exceptErrored {α : Type} : Except String α → Bool
  | .error _ => true
  | .ok _ => false

/-- A filled buy order whose `filled_avg_price` key is absent, so its
notional is `0 * 5 = 0`. -/
def c2buy : Order := ⟨some "AAPL", some "buy", some 5, none, none, some 1, none, none⟩

/-- A later filled sell for the same symbol, eligible to match `c2buy`. -/
def c2sell : Order := ⟨some "AAPL", some "sell", some 5, none, some 10, some 2, none, none⟩

/-- A buy record with no fill timestamp (an unfilled order): only the
requested quantity is present. -/
def c3order : Order := ⟨some "AAPL", some "buy", none, some 5, none, none, none, none⟩

/-- A record lacking both the `side` key and a fill timestamp. -/
def c4order : Order := ⟨none, none, none, none, none, none, none, none⟩

/-- A filled record lacking the `side` key. -/
def c4filled : Order := ⟨some "AAPL", none, some 5, none, some 10, some 1, none, none⟩

/-- A record whose `side` is neither `'buy'` nor `'sell'`. -/
def c10order : Order := ⟨some "AAPL", some "hold", none, none, none, none, none, none⟩

/-- A classified buy fill used to instantiate the matching theorems. -/
def wb9 : BuyFill := ⟨"AAPL", "mom", 10, 1, 1, 10⟩

/-- A classified sell fill eligible to match `wb9`. -/
def ws9 : SellFill := ⟨"AAPL", 12, 1, 2, 12⟩

/-- The matched trade formed from `wb9` and `ws9`. -/
def wt9 : Trade := ⟨"AAPL", 10, 12, 2, 20, 1⟩

/-- A filled buy order: 2 shares at 10, notional 20. -/
def w8buy : Order := ⟨some "AAPL", some "buy", some 2, none, some 10, some 1, none, none⟩

/-- A filled sell order: 2 shares at 11, notional 22. -/
def w8sell : Order := ⟨some "AAPL", some "sell", some 2, none, some 11, some 2, none, none⟩

/-- The `analyze_trades.py` state after processing `[w8buy, w8sell]`. -/
def w8st : TradesState :=
  ⟨[⟨"AAPL", "buy", 2, 10, 20, some 1⟩, ⟨"AAPL", "sell", 2, 11, 22, some 2⟩],
   20, 22, [("AAPL", ⟨[20], [22]⟩)]⟩

/-- A filled buy at price 10 whose fill time ties with `c6buy2`. -/
def c6buy1 : Order := ⟨some "AAPL", some "buy", some 1, none, some 10, some 1, none, none⟩

/-- A filled buy at price 20 whose fill time ties with `c6buy1`. -/
def c6buy2 : Order := ⟨some "AAPL", some "buy", some 1, none, some 20, some 1, none, none⟩

/-- A filled sell later than both tied buys. -/
def c6sell : Order := ⟨some "AAPL", some "sell", some 1, none, some 15, some 2, none, none⟩

/-- A filled buy with a fill time distinct from `w6sell`'s. -/
def w6buy : Order := ⟨some "AAPL", some "buy", some 1, none, some 10, some 1, none, none⟩

/-- A filled sell with a fill time distinct from `w6buy`'s. -/
def w6sell : Order := ⟨some "AAPL", some "sell", some 1, none, some 15, some 2, none, none⟩

/-! ## Classification: discarding and malformed records (C3, C4) -/

theorem classifyOrder_malformed (o : Order) (hfill : o.filled_at ≠ none)
    (h : o.side = none ∨ ((o.side = some "buy" ∨ o.side = some "sell") ∧ o.symbol = none)) :
    exceptErrored (classifyOrder o) = true := by
  rcases hf : o.filled_at with _ | t
  · exact absurd hf hfill
  · rcases h with hside | ⟨hside, hsym⟩
    · simp [classifyOrder, hf, hside, exceptErrored]
    · rcases hside with hside | hside <;> simp [classifyOrder, hf, hside, hsym, exceptErrored]

theorem classifyOrders_propagates (os : List Order) (o : Order) (hmem : o ∈ os)
    (herr : exceptErrored (classifyOrder o) = true) :
    exceptErrored (classifyOrders os) = true := by
  induction os with
  | nil => cases hmem
  | cons p ps ih =>
    rcases List.mem_cons.mp hmem with rfl | hmem'
    · rcases hc : classifyOrder o with e | a
      · simp [classifyOrders, hc, exceptErrored]
      · rw [hc] at herr; simp [exceptErrored] at herr
    · rcases hc : classifyOrder p with e | a
      · simp [classifyOrders, hc, exceptErrored]
      · rcases hcs : classifyOrders ps with e | r
        · cases a <;> simp [classifyOrders, hc, hcs, exceptErrored]
        · have := ih hmem'
          rw [hcs] at this
          simp [exceptErrored] at this

theorem tradesStep_malformed (st : TradesState) (o : Order)
    (h : o.symbol = none ∨ o.side = none) :
    exceptErrored (tradesStep st o) = true := by
  rcases h with hsym | hside
  · simp [tradesStep, hsym, exceptErrored]
  · rcases hs : o.symbol with _ | sym <;>
      simp [tradesStep, hs, hside, exceptErrored]

theorem analyzeTrades_propagates (os : List Order) (o : Order) (hmem : o ∈ os)
    (herr : ∀ st : TradesState, exceptErrored (tradesStep st o) = true) :
    ∀ st : TradesState, exceptErrored (analyzeTrades st os) = true := by
  induction os with
  | nil => cases hmem
  | cons p ps ih =>
    intro st
    rcases List.mem_cons.mp hmem with rfl | hmem'
    · rcases hc : tradesStep st o with e | st'
      · simp [analyzeTrades, hc, exceptErrored]
      · have := herr st; rw [hc] at this; simp [exceptErrored] at this
    · rcases hc : tradesStep st p with e | st'
      · simp [analyzeTrades, hc, exceptErrored]
      · simpa [analyzeTrades, hc] using ih hmem' st'

/-- C3: the claim as stated is false: `analyze_trades.py` does not discard a
record with no fill timestamp — the record below produces a report row
(with time `N/A`) and an entry in the per-symbol aggregates. -/
theorem lft_c3_counterexample :
    c3order.filled_at = none ∧
    runTrades [c3order] =
      .ok ⟨[⟨"AAPL", "buy", 5, 0, 0, none⟩], 0, 0, [("AAPL", ⟨[0], []⟩)]⟩ := by
  constructor
  · rfl
  · simp [runTrades, analyzeTrades, tradesStep, tradesInit, mkRow, tradesNotional,
      pairsAddBuy, c3order]

/-- C3 (amended): in `analyze_win_rates.py` the classifier does discard every
record with no fill timestamp — classification of a batch equals
classification of the batch with those records filtered out, so they reach
neither the buy nor the sell pool (hence no matching). -/
theorem lft_c3_unfilled_discarded :
    ∀ os : List Order,
      classifyOrders os = classifyOrders (os.filter fun o => o.filled_at.isSome) := by
  intro os
  induction os with
  | nil => rfl
  | cons o os ih =>
    rcases hf : o.filled_at with _ | t
    · have hskip : classifyOrder o = .ok .skip := by simp [classifyOrder, hf]
      rcases hcs : classifyOrders os with e | r
      · simp [List.filter_cons, hf, classifyOrders, hskip, hcs, ← ih]
      · rcases r with ⟨bs, ss⟩
        simp [List.filter_cons, hf, classifyOrders, hskip, hcs, ← ih]
    · simp only [List.filter_cons, hf, Option.isSome_some, if_pos]
      simp only [classifyOrders, ← ih]

/-- C4: the claim as stated is false: a record lacking the required `side`
field that also lacks a fill timestamp is silently skipped by
`analyze_win_rates.py` (the batch succeeds with an empty result), not
rejected with an error. -/
theorem lft_c4_counterexample :
    c4order.side = none ∧ classifyOrders [c4order] = .ok ([], []) :=
  ⟨rfl, rfl⟩

/-- C4 (amended): a record that passes the fill-timestamp filter and lacks
`side` — or lacks `symbol` while its side is `'buy'`/`'sell'` — aborts the
whole `analyze_win_rates.py` batch with an error (no partial result); in
`analyze_trades.py` any record lacking `symbol` or `side` aborts the batch;
only records already discarded by the fill-timestamp filter are skipped. -/
theorem lft_c4_malformed_aborts :
    (∀ (os : List Order) (o : Order), o ∈ os → o.filled_at ≠ none →
      (o.side = none ∨ ((o.side = some "buy" ∨ o.side = some "sell") ∧ o.symbol = none)) →
      exceptErrored (classifyOrders os) = true) ∧
    (∀ (os : List Order) (o : Order), o ∈ os → (o.symbol = none ∨ o.side = none) →
      exceptErrored (runTrades os) = true) := by
  constructor
  · intro os o hmem hfill hbad
    exact classifyOrders_propagates os o hmem (classifyOrder_malformed o hfill hbad)
  · intro os o hmem hbad
    exact analyzeTrades_propagates os o hmem (fun st => tradesStep_malformed st o hbad) tradesInit

theorem lft_c4_witness :
    exceptErrored (classifyOrders [c4filled]) = true ∧
    exceptErrored (runTrades [c4order]) = true := by
  constructor
  · exact lft_c4_malformed_aborts.1 [c4filled] c4filled (by decide) (by decide) (Or.inl rfl)
  · exact lft_c4_malformed_aborts.2 [c4order] c4order (by decide) (Or.inl rfl)

/-! ## C2: the pnl_pct division by zero -/

/-- C2: the claim is false of the code and names the intended behaviour: on
a matched buy whose notional is zero, `analyze_win_rates.py` raises
`ZeroDivisionError` at `pnl_pct = (pnl / buy['notional']) * 100` instead of
producing the spec's "N/A" sentinel; the batch below exhibits the crash. -/
theorem lft_c2_pnl_pct_crash :
    analyzeWinRates [c2buy, c2sell] = .error "ZeroDivisionError" := by
  simp [analyzeWinRates, classifyOrders, classifyOrder, strategyOf, splitOnChar,
    c2buy, c2sell, sortBuys, sortSells, List.insertionSort, List.orderedInsert,
    matchSells, findBuy, mkTrade, buyLe, sellLe]

/-! ## C10: report row for a side that is neither buy nor sell -/

/-- C10: in `analyze_trades.py`, a record whose `side` is present but is
neither `'buy'` nor `'sell'` produces its report row yet changes no total
and no per-symbol list, and raises no error. -/
theorem lft_c10_unknown_side_row_only :
    ∀ (st : TradesState) (o : Order) (sym sd : String),
      o.symbol = some sym → o.side = some sd → sd ≠ "buy" → sd ≠ "sell" →
      tradesStep st o = .ok { st with rows := st.rows ++ [mkRow o sym sd] } := by
  intro st o sym sd hsym hside hb hs
  simp [tradesStep, hsym, hside, hb, hs]

theorem lft_c10_witness :
    tradesStep tradesInit c10order =
      .ok { tradesInit with rows := tradesInit.rows ++ [mkRow c10order "AAPL" "hold"] } :=
  lft_c10_unknown_side_row_only tradesInit c10order "AAPL" "hold" rfl rfl
    (by decide) (by decide)

/-! ## C7: win/loss classification -/

theorem statsFold_wins (ms : List (String × Trade)) :
    ∀ (f : String → Stats) (k : String),
      (statsFold f ms k).wins =
        (f k).wins + ms.countP (fun m => decide (m.1 = k) && decide (0 < m.2.pnl)) := by
  induction ms with
  | nil => intro f k; simp [statsFold]
  | cons m ms ih =>
    intro f k
    rw [statsFold, ih]
    simp only [List.countP_cons]
    by_cases hk : k = m.1
    · subst hk
      by_cases hp : 0 < m.2.pnl
      · simp [statsAdd, hp]
        omega
      · simp [statsAdd, hp]
    · have hk' : ¬ m.1 = k := fun h => hk h.symm
      simp [hk, hk']

theorem statsFold_losses (ms : List (String × Trade)) :
    ∀ (f : String → Stats) (k : String),
      (statsFold f ms k).losses =
        (f k).losses + ms.countP (fun m => decide (m.1 = k) && decide (m.2.pnl ≤ 0)) := by
  induction ms with
  | nil => intro f k; simp [statsFold]
  | cons m ms ih =>
    intro f k
    rw [statsFold, ih]
    simp only [List.countP_cons]
    by_cases hk : k = m.1
    · subst hk
      rcases lt_or_le 0 m.2.pnl with hp | hp
      · simp [statsAdd, hp, not_le.2 hp]
      · simp [statsAdd, not_lt.2 hp, hp]
        omega
    · have hk' : ¬ m.1 = k := fun h => hk h.symm
      simp [hk, hk']

theorem countP_pnl_split (k : String) (ms : List (String × Trade)) :
    ms.countP (fun m => decide (m.1 = k) && decide (0 < m.2.pnl)) +
      ms.countP (fun m => decide (m.1 = k) && decide (m.2.pnl ≤ 0)) =
    ms.countP (fun m => decide (m.1 = k)) := by
  induction ms with
  | nil => simp
  | cons m ms ih =>
    simp only [List.countP_cons]
    rcases lt_or_le 0 m.2.pnl with hp | hp
    · by_cases hk : m.1 = k <;> simp [hk, hp, not_le.2 hp] <;> omega
    · by_cases hk : m.1 = k <;> simp [hk, hp, not_lt.2 hp] <;> omega

/-- C7: for every strategy, `wins` counts exactly the matched trades of that
strategy with `pnl > 0`, `losses` counts exactly those with `pnl <= 0` (so a
break-even trade is a loss), and every matched trade of the strategy
increments exactly one of the two counters. -/
theorem lft_c7_win_loss_boundary :
    ∀ (ms : List (String × Trade)) (k : String),
      (strategyStats ms k).wins =
        ms.countP (fun m => decide (m.1 = k) && decide (0 < m.2.pnl)) ∧
      (strategyStats ms k).losses =
        ms.countP (fun m => decide (m.1 = k) && decide (m.2.pnl ≤ 0)) ∧
      (strategyStats ms k).wins + (strategyStats ms k).losses =
        ms.countP (fun m => decide (m.1 = k)) := by
  intro ms k
  have hw := statsFold_wins ms (fun _ => statsInit) k
  have hl := statsFold_losses ms (fun _ => statsInit) k
  have hzw : statsInit.wins = 0 := rfl
  have hzl : statsInit.losses = 0 := rfl
  simp only [hzw, hzl, Nat.zero_add] at hw hl
  have hw' : (strategyStats ms k).wins
      = ms.countP (fun m => decide (m.1 = k) && decide (0 < m.2.pnl)) := hw
  have hl' : (strategyStats ms k).losses
      = ms.countP (fun m => decide (m.1 = k) && decide (m.2.pnl ≤ 0)) := hl
  exact ⟨hw', hl', by rw [hw', hl']; exact countP_pnl_split k ms⟩

/-! ## C9: strategy-tag derivation and inheritance -/

theorem splitOnChar_ne_nil (c : Char) (l : List Char) : splitOnChar c l ≠ [] := by
  induction l with
  | nil => simp [splitOnChar]
  | cons a as ih =>
    by_cases h : a = c
    · simp [splitOnChar, h]
    · cases hs : splitOnChar c as with
      | nil => simp [splitOnChar, h, hs]
      | cons r rs => simp [splitOnChar, h, hs]

theorem splitOnChar_length (c : Char) (l : List Char) :
    (splitOnChar c l).length = l.count c + 1 := by
  induction l with
  | nil => simp [splitOnChar]
  | cons a as ih =>
    by_cases h : a = c
    · subst h
      simp [splitOnChar, List.count_cons_self, ih]
    · cases hs : splitOnChar c as with
      | nil => exact absurd hs (splitOnChar_ne_nil c as)
      | cons r rs =>
        rw [hs] at ih
        simp only [splitOnChar, if_neg h, hs, List.length_cons] at ih ⊢
        rw [List.count_cons_of_ne (fun hc => h hc.symm)]
        exact ih

theorem findBuy_perm (sell : SellFill) (buys : List BuyFill) (b : BuyFill)
    (rest : List BuyFill) (h : findBuy sell buys = some (b, rest)) :
    buys.Perm (b :: rest) := by
  induction buys generalizing b rest with
  | nil => simp [findBuy] at h
  | cons p ps ih =>
    by_cases hp : p.symbol = sell.symbol ∧ p.time < sell.time
    · rw [findBuy, if_pos hp] at h
      simp only [Option.some.injEq, Prod.mk.injEq] at h
      obtain ⟨rfl, rfl⟩ := h
      exact List.Perm.refl _
    · rw [findBuy, if_neg hp] at h
      cases hf : findBuy sell ps with
      | none => rw [hf] at h; cases h
      | some pr =>
        obtain ⟨m, r⟩ := pr
        rw [hf] at h
        simp only [Option.some.injEq, Prod.mk.injEq] at h
        obtain ⟨rfl, rfl⟩ := h
        exact (List.Perm.cons p (ih m r hf)).trans (List.Perm.swap m p r)

theorem findBuy_eligible (sell : SellFill) (buys : List BuyFill) (b : BuyFill)
    (rest : List BuyFill) (h : findBuy sell buys = some (b, rest)) :
    b.symbol = sell.symbol ∧ b.time < sell.time := by
  induction buys generalizing b rest with
  | nil => simp [findBuy] at h
  | cons p ps ih =>
    by_cases hp : p.symbol = sell.symbol ∧ p.time < sell.time
    · rw [findBuy, if_pos hp] at h
      simp only [Option.some.injEq, Prod.mk.injEq] at h
      obtain ⟨rfl, rfl⟩ := h
      exact hp
    · rw [findBuy, if_neg hp] at h
      cases hf : findBuy sell ps with
      | none => rw [hf] at h; cases h
      | some pr =>
        obtain ⟨m, r⟩ := pr
        rw [hf] at h
        simp only [Option.some.injEq, Prod.mk.injEq] at h
        obtain ⟨rfl, rfl⟩ := h
        exact ih m r hf

theorem matchSells_inherits (sells : List SellFill) :
    ∀ (buys : List BuyFill) (ms : List (String × Trade)) (rem : List BuyFill),
      matchSells buys sells = .ok (ms, rem) →
      ∀ m ∈ ms, ∃ b ∈ buys, ∃ s ∈ sells, m.1 = b.strategy ∧ mkTrade b s = .ok m.2 := by
  induction sells with
  | nil =>
    intro buys ms rem h m hm
    rw [matchSells] at h
    simp only [Except.ok.injEq, Prod.mk.injEq] at h
    obtain ⟨rfl, rfl⟩ := h
    cases hm
  | cons s ss ih =>
    intro buys ms rem h m hm
    rw [matchSells] at h
    split at h
    · obtain ⟨b, hb, s', hs', h1, h2⟩ := ih buys ms rem h m hm
      exact ⟨b, hb, s', List.mem_cons_of_mem s hs', h1, h2⟩
    · rename_i pr b0 rest hpr
      split at h
      · cases h
      · rename_i t ht
        split at h
        · cases h
        · rename_i pr' ms' rem' hms
          simp only [Except.ok.injEq, Prod.mk.injEq] at h
          obtain ⟨rfl, rfl⟩ := h
          have hperm := findBuy_perm s buys b0 rest hpr
          have hb0 : b0 ∈ buys := hperm.mem_iff.mpr (List.mem_cons_self b0 rest)
          rcases List.mem_cons.mp hm with rfl | hm'
          · exact ⟨b0, hb0, s, List.mem_cons_self s ss, rfl, ht⟩
          · obtain ⟨b, hb, s', hs', h1, h2⟩ := ih rest ms' rem' hms m hm'
            have hbb : b ∈ buys := hperm.mem_iff.mpr (List.mem_cons_of_mem b0 hb)
            exact ⟨b, hbb, s', List.mem_cons_of_mem s hs', h1, h2⟩

/-- C9: the strategy tag of a buy order is exactly the spec's rule — the
second delimiter-separated token of the client identifier when one is
present and contains the delimiter, and the literal `'UNKNOWN'` otherwise —
and every matched trade is recorded under the strategy of the buy fill it
consumed. -/
theorem lft_c9_strategy_tag :
    (∀ o : Order, strategyOf o = specStrategyTag o) ∧
    (∀ (buys : List BuyFill) (sells : List SellFill) (ms : List (String × Trade))
      (rem : List BuyFill), matchSells buys sells = .ok (ms, rem) →
      ∀ m ∈ ms, ∃ b ∈ buys, ∃ s ∈ sells, m.1 = b.strategy ∧ mkTrade b s = .ok m.2) := by
  constructor
  · intro o
    cases hc : o.client_order_id with
    | none => simp [strategyOf, specStrategyTag, hc]
    | some cid =>
      by_cases hm : '_' ∈ cid.data
      · have hne : cid ≠ "" := by
          intro h
          subst h
          exact absurd hm (by decide)
        have hlen : 2 ≤ (splitOnChar '_' cid.data).length := by
          rw [splitOnChar_length]
          have := List.count_pos_iff.mpr hm
          omega
        simp [strategyOf, specStrategyTag, hc, hne, hm, hlen]
      · have hzero : cid.data.count '_' = 0 := List.count_eq_zero.mpr hm
        have hlen : ¬ 2 ≤ (splitOnChar '_' cid.data).length := by
          rw [splitOnChar_length, hzero]
          omega
        simp [strategyOf, specStrategyTag, hc, hm, hlen]
  · intro buys sells ms rem h m hm
    exact matchSells_inherits sells buys ms rem h m hm

theorem lft_c9_witness :
    "mom" = wb9.strategy ∧ mkTrade wb9 ws9 = .ok wt9 := by
  have happ := lft_c9_strategy_tag.2 [wb9] [ws9] [("mom", wt9)] []
    (by simp [matchSells, findBuy, mkTrade, wb9, ws9, wt9]; norm_num)
    ("mom", wt9) (List.mem_singleton.mpr rfl)
  obtain ⟨b, hb, s, hs, h1, h2⟩ := happ
  rw [List.mem_singleton] at hb hs
  subst hb
  subst hs
  exact ⟨h1, h2⟩

/-! ## C8: aggregation conserves totals -/

theorem pairsBuySum_addBuy (l : List (String × SymbolLists)) (sym : String) (n : ℚ) :
    pairsBuySum (pairsAddBuy l sym n) = pairsBuySum l + n := by
  induction l with
  | nil => simp [pairsAddBuy, pairsBuySum]
  | cons p rest ih =>
    obtain ⟨s, ls⟩ := p
    by_cases h : s = sym
    · simp [pairsAddBuy, h, pairsBuySum]
      ring
    · simp only [pairsAddBuy, if_neg h, pairsBuySum, List.map_cons, List.sum_cons] at ih ⊢
      rw [ih]
      ring

theorem pairsSellSum_addBuy (l : List (String × SymbolLists)) (sym : String) (n : ℚ) :
    pairsSellSum (pairsAddBuy l sym n) = pairsSellSum l := by
  induction l with
  | nil => simp [pairsAddBuy, pairsSellSum]
  | cons p rest ih =>
    obtain ⟨s, ls⟩ := p
    by_cases h : s = sym
    · simp [pairsAddBuy, h, pairsSellSum]
    · simp only [pairsAddBuy, if_neg h, pairsSellSum, List.map_cons, List.sum_cons] at ih ⊢
      rw [ih]

theorem pairsBuySum_addSell (l : List (String × SymbolLists)) (sym : String) (n : ℚ) :
    pairsBuySum (pairsAddSell l sym n) = pairsBuySum l := by
  induction l with
  | nil => simp [pairsAddSell, pairsBuySum]
  | cons p rest ih =>
    obtain ⟨s, ls⟩ := p
    by_cases h : s = sym
    · simp [pairsAddSell, h, pairsBuySum]
    · simp only [pairsAddSell, if_neg h, pairsBuySum, List.map_cons, List.sum_cons] at ih ⊢
      rw [ih]

theorem pairsSellSum_addSell (l : List (String × SymbolLists)) (sym : String) (n : ℚ) :
    pairsSellSum (pairsAddSell l sym n) = pairsSellSum l + n := by
  induction l with
  | nil => simp [pairsAddSell, pairsSellSum]
  | cons p rest ih =>
    obtain ⟨s, ls⟩ := p
    by_cases h : s = sym
    · simp [pairsAddSell, h, pairsSellSum]
      ring
    · simp only [pairsAddSell, if_neg h, pairsSellSum, List.map_cons, List.sum_cons] at ih ⊢
      rw [ih]
      ring

theorem inputBuyTotal_cons (o : Order) (os : List Order) :
    inputBuyTotal (o :: os) =
      (if o.side = some "buy" then tradesNotional o else 0) + inputBuyTotal os := by
  by_cases h : o.side = some "buy" <;> simp [inputBuyTotal, List.filter_cons, h]

theorem inputSellTotal_cons (o : Order) (os : List Order) :
    inputSellTotal (o :: os) =
      (if o.side = some "sell" then tradesNotional o else 0) + inputSellTotal os := by
  by_cases h : o.side = some "sell" <;> simp [inputSellTotal, List.filter_cons, h]

theorem tradesStep_invert (st : TradesState) (o : Order) (st1 : TradesState)
    (h : tradesStep st o = .ok st1) :
    st1.total_buy = st.total_buy + (if o.side = some "buy" then tradesNotional o else 0) ∧
    st1.total_sell = st.total_sell + (if o.side = some "sell" then tradesNotional o else 0) ∧
    pairsBuySum st1.pairs =
      pairsBuySum st.pairs + (if o.side = some "buy" then tradesNotional o else 0) ∧
    pairsSellSum st1.pairs =
      pairsSellSum st.pairs + (if o.side = some "sell" then tradesNotional o else 0) := by
  rcases hsym : o.symbol with _ | sym
  · simp [tradesStep, hsym] at h
  · rcases hside : o.side with _ | sd
    · simp [tradesStep, hsym, hside] at h
    · simp only [tradesStep, hsym, hside] at h
      by_cases hb : sd = "buy"
      · rw [if_pos hb] at h
        simp only [Except.ok.injEq] at h
        subst h
        subst hb
        simp [hside, pairsBuySum_addBuy, pairsSellSum_addBuy]
      · rw [if_neg hb] at h
        by_cases hs : sd = "sell"
        · rw [if_pos hs] at h
          simp only [Except.ok.injEq] at h
          subst h
          subst hs
          simp [hside, hb, pairsBuySum_addSell, pairsSellSum_addSell]
        · rw [if_neg hs] at h
          simp only [Except.ok.injEq] at h
          subst h
          have hsb : ¬ o.side = some "buy" := by simp [hside, hb]
          have hss : ¬ o.side = some "sell" := by simp [hside, hs]
          simp [hsb, hss, hb, hs]

theorem analyzeTrades_totals (os : List Order) :
    ∀ (st st' : TradesState), analyzeTrades st os = .ok st' →
      st'.total_buy = st.total_buy + inputBuyTotal os ∧
      st'.total_sell = st.total_sell + inputSellTotal os ∧
      pairsBuySum st'.pairs = pairsBuySum st.pairs + inputBuyTotal os ∧
      pairsSellSum st'.pairs = pairsSellSum st.pairs + inputSellTotal os := by
  induction os with
  | nil =>
    intro st st' h
    rw [analyzeTrades] at h
    simp only [Except.ok.injEq] at h
    subst h
    simp [inputBuyTotal, inputSellTotal]
  | cons o os ih =>
    intro st st' h
    rw [analyzeTrades] at h
    cases hs : tradesStep st o with
    | error e => rw [hs] at h; cases h
    | ok st1 =>
      rw [hs] at h
      obtain ⟨ht1, ht2, ht3, ht4⟩ := ih st1 st' h
      obtain ⟨hb1, hb2, hb3, hb4⟩ := tradesStep_invert st o st1 hs
      rw [inputBuyTotal_cons, inputSellTotal_cons]
      constructor
      · rw [ht1, hb1]; ring
      constructor
      · rw [ht2, hb2]; ring
      constructor
      · rw [ht3, hb3]; ring
      · rw [ht4, hb4]; ring

theorem pairsPnl_eq (l : List (String × SymbolLists)) :
    pairsPnl l = pairsSellSum l - pairsBuySum l := by
  induction l with
  | nil => simp [pairsPnl, pairsSellSum, pairsBuySum]
  | cons p rest ih =>
    simp only [pairsPnl, pairsSellSum, pairsBuySum, List.map_cons, List.sum_cons] at ih ⊢
    rw [ih]
    ring

/-- C8: the per-symbol aggregation of `analyze_trades.py` conserves totals:
the per-symbol buy lists sum to `total_buy`, which equals the sum of all
buy-record notionals of the input (likewise for sells), and the grand
realized P&L of the per-symbol breakdown equals total sold minus total
bought. -/
theorem lft_c8_conservation :
    ∀ (orders : List Order) (st : TradesState), runTrades orders = .ok st →
      pairsBuySum st.pairs = st.total_buy ∧
      pairsSellSum st.pairs = st.total_sell ∧
      st.total_buy = inputBuyTotal orders ∧
      st.total_sell = inputSellTotal orders ∧
      pairsPnl st.pairs = st.total_sell - st.total_buy := by
  intro orders st h
  obtain ⟨h1, h2, h3, h4⟩ := analyzeTrades_totals orders tradesInit st h
  have hz1 : tradesInit.total_buy = 0 := rfl
  have hz2 : tradesInit.total_sell = 0 := rfl
  have hz3 : pairsBuySum tradesInit.pairs = 0 := rfl
  have hz4 : pairsSellSum tradesInit.pairs = 0 := rfl
  rw [hz1, zero_add] at h1
  rw [hz2, zero_add] at h2
  rw [hz3, zero_add] at h3
  rw [hz4, zero_add] at h4
  refine ⟨by rw [h3, h1], by rw [h4, h2], h1, h2, ?_⟩
  rw [pairsPnl_eq, h3, h4, h1, h2]

theorem lft_c8_witness :
    pairsBuySum w8st.pairs = w8st.total_buy ∧
    pairsSellSum w8st.pairs = w8st.total_sell ∧
    w8st.total_buy = inputBuyTotal [w8buy, w8sell] ∧
    w8st.total_sell = inputSellTotal [w8buy, w8sell] ∧
    pairsPnl w8st.pairs = w8st.total_sell - w8st.total_buy :=
  lft_c8_conservation [w8buy, w8sell] w8st
    (by simp [runTrades, analyzeTrades, tradesStep, tradesInit, mkRow, tradesNotional,
      pairsAddBuy, pairsAddSell, w8buy, w8sell, w8st]; norm_num)

/-! ## C1: the engine implements the spec's first-eligible-buy rule -/

theorem findBuy_eq_spec (sell : SellFill) (buys : List BuyFill) :
    findBuy sell buys =
      (specSelect buys sell).map (fun b => (b, specRemove buys sell)) := by
  induction buys with
  | nil => simp [findBuy, specSelect, specRemove]
  | cons p ps ih =>
    by_cases hp : p.symbol = sell.symbol ∧ p.time < sell.time
    · have he : specEligible sell p = true := by simp [specEligible, hp]
      rw [findBuy, if_pos hp]
      simp [specSelect, specRemove, List.find?_cons_of_pos _ he, List.findIdx_cons, he]
    · have he : specEligible sell p = false := by simp [specEligible, hp]
      rw [findBuy, if_neg hp, ih]
      cases hf : specSelect ps sell with
      | none =>
        have hsel : specSelect (p :: ps) sell = none := by
          rw [specSelect, List.find?_cons_of_neg _ (by simp [he])]
          exact hf
        rw [hsel]
        rfl
      | some m =>
        have hsel : specSelect (p :: ps) sell = some m := by
          rw [specSelect, List.find?_cons_of_neg _ (by simp [he])]
          exact hf
        have hrem : specRemove (p :: ps) sell = p :: specRemove ps sell := by
          rw [specRemove, specRemove, List.findIdx_cons, he]
          simp
        rw [hsel]
        simp [hrem]

theorem matchSells_eq_spec (sells : List SellFill) :
    ∀ buys : List BuyFill, matchSells buys sells = specMatchSells buys sells := by
  induction sells with
  | nil => intro buys; rfl
  | cons s ss ih =>
    intro buys
    rw [matchSells, specMatchSells, findBuy_eq_spec]
    cases hf : specSelect buys s with
    | none => simp [ih]
    | some b => simp [ih]

/-- C1: the reconciliation engine of `analyze_win_rates.py` coincides with
the spec's rule: sells are processed in ascending timestamp order (the
sorted sell list is sorted), and each sell takes the first remaining buy
with its symbol and a strictly earlier timestamp, which is then removed
from the pool; a sell with no eligible buy contributes no matched trade. -/
theorem lft_c1_first_eligible_buy :
    (∀ sells : List SellFill, List.Sorted sellLe (sortSells sells)) ∧
    (∀ orders : List Order, analyzeWinRates orders = specAnalyzeWinRates orders) := by
  constructor
  · intro sells
    exact List.sorted_insertionSort sellLe sells
  · intro orders
    rw [analyzeWinRates, specAnalyzeWinRates]
    cases hc : classifyOrders orders with
    | error e => rfl
    | ok pr =>
      obtain ⟨buys, sells⟩ := pr
      exact matchSells_eq_spec (sortSells sells) (sortBuys buys)

/-! ## C5: a matched buy is never reused -/

theorem mkTrade_ok_symbol (b : BuyFill) (s : SellFill) (t : Trade)
    (h : mkTrade b s = .ok t) : t.symbol = b.symbol := by
  rw [mkTrade] at h
  split at h
  · cases h
  · simp only [Except.ok.injEq] at h
    subst h
    rfl

theorem matchSells_counts (sells : List SellFill) :
    ∀ (buys : List BuyFill) (ms : List (String × Trade)) (rem : List BuyFill),
      matchSells buys sells = .ok (ms, rem) → ∀ sym : String,
      ms.countP (fun m => decide (m.2.symbol = sym)) +
        rem.countP (fun b => decide (b.symbol = sym)) =
        buys.countP (fun b => decide (b.symbol = sym)) ∧
      ms.countP (fun m => decide (m.2.symbol = sym)) ≤
        sells.countP (fun s => decide (s.symbol = sym)) := by
  induction sells with
  | nil =>
    intro buys ms rem h sym
    rw [matchSells] at h
    simp only [Except.ok.injEq, Prod.mk.injEq] at h
    obtain ⟨rfl, rfl⟩ := h
    simp
  | cons s ss ih =>
    intro buys ms rem h sym
    rw [matchSells] at h
    split at h
    · obtain ⟨h1, h2⟩ := ih buys ms rem h sym
      refine ⟨h1, h2.trans ?_⟩
      simp only [List.countP_cons]
      omega
    · rename_i pr b0 rest hpr
      split at h
      · cases h
      · rename_i t ht
        split at h
        · cases h
        · rename_i pr' ms' rem' hms
          simp only [Except.ok.injEq, Prod.mk.injEq] at h
          obtain ⟨rfl, rfl⟩ := h
          obtain ⟨h1, h2⟩ := ih rest ms' rem' hms sym
          have hperm := findBuy_perm s buys b0 rest hpr
          have hcnt : buys.countP (fun b => decide (b.symbol = sym)) =
              (b0 :: rest).countP (fun b => decide (b.symbol = sym)) :=
            hperm.countP_eq _
          have hts : t.symbol = b0.symbol := mkTrade_ok_symbol b0 s t ht
          have hbs : b0.symbol = s.symbol := (findBuy_eligible s buys b0 rest hpr).1
          rw [hcnt]
          simp only [List.countP_cons, hts, hbs]
          constructor
          · omega
          · omega

/-- C5: matching never reuses a buy: for every symbol, the matched trades
and the leftover pool exactly partition the buy pool (each matched trade
consumes one distinct buy), so the number of matched trades for a symbol is
at most the minimum of that symbol's buy count and sell count. -/
theorem lft_c5_buy_used_once :
    ∀ (buys : List BuyFill) (sells : List SellFill) (ms : List (String × Trade))
      (rem : List BuyFill), matchSells buys sells = .ok (ms, rem) → ∀ sym : String,
      ms.countP (fun m => decide (m.2.symbol = sym)) +
        rem.countP (fun b => decide (b.symbol = sym)) =
        buys.countP (fun b => decide (b.symbol = sym)) ∧
      ms.countP (fun m => decide (m.2.symbol = sym)) ≤
        min (buys.countP (fun b => decide (b.symbol = sym)))
          (sells.countP (fun s => decide (s.symbol = sym))) := by
  intro buys sells ms rem h sym
  obtain ⟨h1, h2⟩ := matchSells_counts sells buys ms rem h sym
  exact ⟨h1, le_min (by omega) h2⟩

theorem lft_c5_witness :
    [("mom", wt9)].countP (fun m => decide (m.2.symbol = "AAPL")) +
      ([] : List BuyFill).countP (fun b => decide (b.symbol = "AAPL")) =
      [wb9].countP (fun b => decide (b.symbol = "AAPL")) ∧
    [("mom", wt9)].countP (fun m => decide (m.2.symbol = "AAPL")) ≤
      min ([wb9].countP (fun b => decide (b.symbol = "AAPL")))
        ([ws9].countP (fun s => decide (s.symbol = "AAPL"))) :=
  lft_c5_buy_used_once [wb9] [ws9] [("mom", wt9)] []
    (by simp [matchSells, findBuy, mkTrade, wb9, ws9, wt9]; norm_num) "AAPL"

/-! ## C6: input-order invariance of matching -/

theorem classifyOrders_filterMap (os : List Order) :
    ∀ (bs : List BuyFill) (ss : List SellFill), classifyOrders os = .ok (bs, ss) →
      bs = os.filterMap buyOf ∧ ss = os.filterMap sellOf := by
  induction os with
  | nil =>
    intro bs ss h
    rw [classifyOrders] at h
    simp only [Except.ok.injEq, Prod.mk.injEq] at h
    obtain ⟨rfl, rfl⟩ := h
    simp
  | cons o os ih =>
    intro bs ss h
    rw [classifyOrders] at h
    split at h
    · cases h
    · rename_i a ha
      split at h
      · cases h
      · rename_i pr bs' ss' hcs
        obtain ⟨ih1, ih2⟩ := ih bs' ss' hcs
        cases a with
        | skip =>
          have hbuy : buyOf o = none := by simp [buyOf, ha]
          have hsell : sellOf o = none := by simp [sellOf, ha]
          simp only [Except.ok.injEq, Prod.mk.injEq] at h
          obtain ⟨rfl, rfl⟩ := h
          simp [List.filterMap_cons, hbuy, hsell, ih1, ih2]
        | addBuy b =>
          have hbuy : buyOf o = some b := by simp [buyOf, ha]
          have hsell : sellOf o = none := by simp [sellOf, ha]
          simp only [Except.ok.injEq, Prod.mk.injEq] at h
          obtain ⟨rfl, rfl⟩ := h
          simp [List.filterMap_cons, hbuy, hsell, ih1, ih2]
        | addSell s =>
          have hbuy : buyOf o = none := by simp [buyOf, ha]
          have hsell : sellOf o = some s := by simp [sellOf, ha]
          simp only [Except.ok.injEq, Prod.mk.injEq] at h
          obtain ⟨rfl, rfl⟩ := h
          simp [List.filterMap_cons, hbuy, hsell, ih1, ih2]

theorem sortBuys_eq_of_perm (l1 l2 : List BuyFill) (hp : l1.Perm l2)
    (hn : (l1.map BuyFill.time).Nodup) : sortBuys l1 = sortBuys l2 := by
  have hs1 : List.Sorted buyLe (sortBuys l1) := List.sorted_insertionSort buyLe l1
  have hs2 : List.Sorted buyLe (sortBuys l2) := List.sorted_insertionSort buyLe l2
  have hp1 : (sortBuys l1).Perm l1 := List.perm_insertionSort buyLe l1
  have hp2 : (sortBuys l2).Perm l2 := List.perm_insertionSort buyLe l2
  have hperm : (sortBuys l1).Perm (sortBuys l2) := (hp1.trans hp).trans hp2.symm
  have hn1 : ((sortBuys l1).map BuyFill.time).Nodup :=
    ((hp1.map BuyFill.time).nodup_iff).mpr hn
  have hn2 : ((sortBuys l2).map BuyFill.time).Nodup :=
    ((hperm.map BuyFill.time).nodup_iff).mp hn1
  have hne1 : (sortBuys l1).Pairwise (fun a b => a.time ≠ b.time) :=
    (List.pairwise_map).mp hn1
  have hne2 : (sortBuys l2).Pairwise (fun a b => a.time ≠ b.time) :=
    (List.pairwise_map).mp hn2
  have hlt1 : (sortBuys l1).Pairwise (fun a b : BuyFill => a.time < b.time) :=
    hs1.imp₂ (fun _ _ hle hne => Nat.lt_of_le_of_ne hle hne) hne1
  have hlt2 : (sortBuys l2).Pairwise (fun a b : BuyFill => a.time < b.time) :=
    hs2.imp₂ (fun _ _ hle hne => Nat.lt_of_le_of_ne hle hne) hne2
  exact @List.eq_of_perm_of_sorted BuyFill (fun a b => a.time < b.time)
    ⟨fun _ _ h1 h2 => absurd h2 (Nat.lt_asymm h1)⟩ _ _ hperm hlt1 hlt2

theorem sortSells_eq_of_perm (l1 l2 : List SellFill) (hp : l1.Perm l2)
    (hn : (l1.map SellFill.time).Nodup) : sortSells l1 = sortSells l2 := by
  have hs1 : List.Sorted sellLe (sortSells l1) := List.sorted_insertionSort sellLe l1
  have hs2 : List.Sorted sellLe (sortSells l2) := List.sorted_insertionSort sellLe l2
  have hp1 : (sortSells l1).Perm l1 := List.perm_insertionSort sellLe l1
  have hp2 : (sortSells l2).Perm l2 := List.perm_insertionSort sellLe l2
  have hperm : (sortSells l1).Perm (sortSells l2) := (hp1.trans hp).trans hp2.symm
  have hn1 : ((sortSells l1).map SellFill.time).Nodup :=
    ((hp1.map SellFill.time).nodup_iff).mpr hn
  have hn2 : ((sortSells l2).map SellFill.time).Nodup :=
    ((hperm.map SellFill.time).nodup_iff).mp hn1
  have hne1 : (sortSells l1).Pairwise (fun a b => a.time ≠ b.time) :=
    (List.pairwise_map).mp hn1
  have hne2 : (sortSells l2).Pairwise (fun a b => a.time ≠ b.time) :=
    (List.pairwise_map).mp hn2
  have hlt1 : (sortSells l1).Pairwise (fun a b : SellFill => a.time < b.time) :=
    hs1.imp₂ (fun _ _ hle hne => Nat.lt_of_le_of_ne hle hne) hne1
  have hlt2 : (sortSells l2).Pairwise (fun a b : SellFill => a.time < b.time) :=
    hs2.imp₂ (fun _ _ hle hne => Nat.lt_of_le_of_ne hle hne) hne2
  exact @List.eq_of_perm_of_sorted SellFill (fun a b => a.time < b.time)
    ⟨fun _ _ h1 h2 => absurd h2 (Nat.lt_asymm h1)⟩ _ _ hperm hlt1 hlt2

/-- C6: the claim as stated is false: with two same-symbol buys sharing one
fill timestamp, swapping them in the input batch changes which buy the later
sell matches (the stable sort preserves their input order and the engine
takes the first), so the matched trades differ. -/
theorem lft_c6_counterexample :
    [c6buy1, c6buy2, c6sell].Perm [c6buy2, c6buy1, c6sell] ∧
    analyzeWinRates [c6buy1, c6buy2, c6sell] ≠ analyzeWinRates [c6buy2, c6buy1, c6sell] := by
  constructor
  · exact List.Perm.swap c6buy2 c6buy1 [c6sell]
  · simp [analyzeWinRates, classifyOrders, classifyOrder, strategyOf, splitOnChar,
      c6buy1, c6buy2, c6sell, sortBuys, sortSells, List.insertionSort, List.orderedInsert,
      matchSells, findBuy, mkTrade, buyLe, sellLe]

/-- C6 (amended): matching is invariant under permutation of the input batch
provided no two classified buys share a fill timestamp and no two classified
sells share a fill timestamp; with such ties the engine's stable sort keeps
the input order and the result can depend on it. -/
theorem lft_c6_perm_invariance :
    ∀ (os1 os2 : List Order) (bs1 : List BuyFill) (ss1 : List SellFill)
      (bs2 : List BuyFill) (ss2 : List SellFill),
      os1.Perm os2 →
      classifyOrders os1 = .ok (bs1, ss1) →
      classifyOrders os2 = .ok (bs2, ss2) →
      (bs1.map BuyFill.time).Nodup →
      (ss1.map SellFill.time).Nodup →
      analyzeWinRates os1 = analyzeWinRates os2 := by
  intro os1 os2 bs1 ss1 bs2 ss2 hp hc1 hc2 hnb hns
  obtain ⟨hb1, hs1⟩ := classifyOrders_filterMap os1 bs1 ss1 hc1
  obtain ⟨hb2, hs2⟩ := classifyOrders_filterMap os2 bs2 ss2 hc2
  have hpb : bs1.Perm bs2 := by
    rw [hb1, hb2]
    exact hp.filterMap buyOf
  have hps : ss1.Perm ss2 := by
    rw [hs1, hs2]
    exact hp.filterMap sellOf
  simp only [analyzeWinRates, hc1, hc2]
  rw [sortBuys_eq_of_perm bs1 bs2 hpb hnb, sortSells_eq_of_perm ss1 ss2 hps hns]

theorem lft_c6_witness :
    analyzeWinRates [w6buy, w6sell] = analyzeWinRates [w6sell, w6buy] :=
  lft_c6_perm_invariance [w6buy, w6sell] [w6sell, w6buy]
    [⟨"AAPL", "UNKNOWN", 10, 1, 1, 10⟩] [⟨"AAPL", 15, 1, 2, 15⟩]
    [⟨"AAPL", "UNKNOWN", 10, 1, 1, 10⟩] [⟨"AAPL", 15, 1, 2, 15⟩]
    (List.Perm.swap w6sell w6buy [])
    (by simp [classifyOrders, classifyOrder, strategyOf, w6buy, w6sell])
    (by simp [classifyOrders, classifyOrder, strategyOf, w6buy, w6sell])
    (by simp)
    (by simp)
